import Mathlib

/-!
# Verification of the coin-flip Monte Carlo market simulator

Shallow embedding of `src/progettofinanza.py`: a script that fetches a price
series, derives daily fractional returns, draws a T×N binary decision matrix,
compounds equity curves for all simulated paths and the buy-and-hold benchmark,
and reports how many random paths beat the benchmark.

Numeric cells are modelled as rationals (ℚ); matrices as lists of rows
(row `t` = trading day `t`, column `n` = simulation `n`).
-/

namespace CoinFlip

/-- `nth l i`: element `i` of a rational list, `0` past the end
(used only under in-bounds hypotheses). -/
def nth (l : List ℚ) (i : ℕ) : ℚ := l.getD i 0

/-- `entry m t n`: cell `(t, n)` of a matrix given as a list of rows. -/
def entry (m : List (List ℚ)) (t n : ℕ) : ℚ := nth (m.getD t []) n

/-- `m` is a T×N matrix: T rows, each of length N. -/
def IsMatrix (T N : ℕ) (m : List (List ℚ)) : Prop :=
  m.length = T ∧ ∀ row ∈ m, row.length = N

/-- Every cell of `m` is 0 or 1 (a decision matrix's contract). -/
def IsBinary (m : List (List ℚ)) : Prop :=
  ∀ row ∈ m, ∀ x ∈ row, x = 0 ∨ x = 1

/-! ## Return Series Builder (`market_returns = prices.pct_change().fillna(0)`,
line 30 of the source)

A fetched price cell may be missing, so prices are `Option ℚ`.
`pct_change` leaves the first element and any change touching a missing
price undefined (`none`); `fillna0` substitutes 0 for every undefined cell. -/

/-- `prices.pct_change()`: element 0 is undefined; element `t ≥ 1` is
`price[t]/price[t-1] - 1` when both prices are present, undefined otherwise. -/
def pct_change (prices : List (Option ℚ)) : List (Option ℚ) :=
  match prices with
  | [] => []
  | _ :: tl =>
      none :: List.zipWith (fun prev cur =>
        match prev, cur with
        | some q, some p => some (p / q - 1)
        | _, _ => none) prices tl

/-- `.fillna(0)`: replace every undefined cell with 0. -/
def fillna0 (l : List (Option ℚ)) : List ℚ := l.map (fun o => o.getD 0)

/-- Line 30: `market_returns = prices.pct_change().fillna(0).to_numpy()`. -/
def market_returns (prices : List (Option ℚ)) : List ℚ :=
  fillna0 (pct_change prices)

/-! ## Simulation Engine (lines 44–56 of the source) -/

/-- One 64-bit step of the deterministic pseudo-random generator state.
Stand-in for numpy's global Mersenne-Twister state update: the claims depend
only on the generator being a deterministic function of its seeded state. -/
def rngNext (s : ℕ) : ℕ :=
  (6364136223846793005 * s + 1442695040888963407) % 18446744073709551616

/-- Generator state after `k` steps from `seed`. -/
def rngState (seed : ℕ) : ℕ → ℕ
  | 0 => seed
  | k + 1 => rngNext (rngState seed k)

/-- The `k`-th coin flip drawn from the generator seeded with `seed`:
a 0/1 cell, each with probability 1/2 (`np.random.choice([0, 1], p=[0.5, 0.5])`). -/
def draw (seed k : ℕ) : ℚ :=
  if rngState seed (k + 1) / 4294967296 % 2 = 0 then 0 else 1

/-- The T×N grid of coin flips, drawn row by row from the seeded generator. -/
def buildMatrix (seed T N : ℕ) : List (List ℚ) :=
  (List.range T).map (fun t => (List.range N).map (fun n => draw seed (t * N + n)))

/-- Line 44: `decision_matrix = np.random.choice([0, 1], size=(T, NUM_SIMULATIONS),
p=[0.5, 0.5])`. numpy rejects a negative dimension (`ValueError`) and accepts a
zero dimension, returning an empty array; the generator is numpy's seeded global
state, modelled by `draw`. -/
def decision_matrix (seed : ℕ) (T N : ℤ) : Option (List (List ℚ)) :=
  if 0 ≤ T ∧ 0 ≤ N then some (buildMatrix seed T.toNat N.toNat) else none

/-- Line 49: `simulated_daily_returns = market_returns.reshape(-1, 1) *
decision_matrix` — broadcast multiply: row `t` of the decision grid is scaled
by `r[t]`. -/
def simulated_daily_returns (r : List ℚ) (d : List (List ℚ)) : List (List ℚ) :=
  List.zipWith (fun rt row => row.map (fun x => rt * x)) r d

/-- Elementwise `1 + m` on a matrix. -/
def onePlus (m : List (List ℚ)) : List (List ℚ) :=
  m.map (fun row => row.map (fun x => 1 + x))

/-- Running product down each column: output row `t` is the elementwise product
of `acc` with input rows `0..t`. -/
def cumprodFrom (acc : List ℚ) : List (List ℚ) → List (List ℚ)
  | [] => []
  | row :: rest =>
      let cur := List.zipWith (fun a b => a * b) acc row
      cur :: cumprodFrom cur rest

/-- `np.cumprod(·, axis=0)`: columnwise running product, starting from a row
of ones of the matrix's width. -/
def cumprodCols (m : List (List ℚ)) : List (List ℚ) :=
  cumprodFrom (List.replicate (m.headD []).length 1) m

/-- Line 53: `equity_curves = np.cumprod(1 + simulated_daily_returns, axis=0)`. -/
def equity_curves (r : List ℚ) (d : List (List ℚ)) : List (List ℚ) :=
  cumprodCols (onePlus (simulated_daily_returns r d))

/-- Running product of a single sequence, seeded with `acc`. -/
def cumprodFrom1 (acc : ℚ) : List ℚ → List ℚ
  | [] => []
  | x :: xs => (acc * x) :: cumprodFrom1 (acc * x) xs

/-- `np.cumprod` on a vector. -/
def cumprodList (xs : List ℚ) : List ℚ := cumprodFrom1 1 xs

/-- Line 56: `benchmark_curve = np.cumprod(1 + market_returns)`. -/
def benchmark_curve (r : List ℚ) : List ℚ :=
  cumprodList (r.map (fun x => 1 + x))

/-! ## Analysis (lines 61–75 of the source) -/

/-- Line 61: `final_values = equity_curves[-1, :]` — the last row; indexing the
last row of a zero-row array is an error (`none`). -/
def final_values (eq : List (List ℚ)) : Option (List ℚ) := eq.getLast?

/-- Line 62: `benchmark_final = benchmark_curve[-1]`. -/
def benchmark_final (r : List ℚ) : Option ℚ := (benchmark_curve r).getLast?

/-- Line 74: `beat_benchmark = np.sum(final_values > benchmark_final)` —
the number of final values strictly greater than the benchmark's. -/
def beat_benchmark (fv : List ℚ) (bf : ℚ) : ℕ :=
  (fv.filter (fun x => decide (bf < x))).length

/-- Line 75: `prob_success = (beat_benchmark / NUM_SIMULATIONS) * 100`. -/
def prob_success (beat N : ℕ) : ℚ := ((beat : ℚ) / (N : ℚ)) * 100

/-! ## Generic list lemmas -/

lemma getD_zipWith' {α β γ : Type} (f : α → β → γ) :
    ∀ (a : List α) (b : List β) (n : ℕ), n < a.length → n < b.length →
    ∀ (da : α) (db : β) (dc : γ),
      (List.zipWith f a b).getD n dc = f (a.getD n da) (b.getD n db) := by
  intro a
  induction a with
  | nil => intro b n h; exact absurd h (Nat.not_lt_zero n)
  | cons x xs ih =>
      intro b n ha hb da db dc
      cases b with
      | nil => exact absurd hb (Nat.not_lt_zero n)
      | cons y ys =>
          cases n with
          | zero => rfl
          | succ m =>
              simp only [List.zipWith_cons_cons, List.getD_cons_succ]
              exact ih ys m (Nat.lt_of_succ_lt_succ ha) (Nat.lt_of_succ_lt_succ hb) da db dc

lemma getD_map' {α β : Type} (f : α → β) :
    ∀ (l : List α) (n : ℕ), n < l.length → ∀ (da : α) (db : β),
      (l.map f).getD n db = f (l.getD n da) := by
  intro l
  induction l with
  | nil => intro n h; exact absurd h (Nat.not_lt_zero n)
  | cons x xs ih =>
      intro n h da db
      cases n with
      | zero => rfl
      | succ m =>
          simp only [List.map_cons, List.getD_cons_succ]
          exact ih m (Nat.lt_of_succ_lt_succ h) da db

lemma getD_replicate' {α : Type} (a : α) :
    ∀ (k n : ℕ), n < k → ∀ (d : α), (List.replicate k a).getD n d = a := by
  intro k
  induction k with
  | zero => intro n h; exact absurd h (Nat.not_lt_zero n)
  | succ m ih =>
      intro n h d
      cases n with
      | zero => rfl
      | succ j =>
          simp only [List.replicate_succ, List.getD_cons_succ]
          exact ih j (Nat.lt_of_succ_lt_succ h) d

lemma getD_mem' {α : Type} :
    ∀ (l : List α) (n : ℕ), n < l.length → ∀ (d : α), l.getD n d ∈ l := by
  intro l
  induction l with
  | nil => intro n h; exact absurd h (Nat.not_lt_zero n)
  | cons x xs ih =>
      intro n h d
      cases n with
      | zero => exact List.mem_cons_self x xs
      | succ m =>
          simp only [List.getD_cons_succ]
          exact List.mem_cons_of_mem x (ih m (Nat.lt_of_succ_lt_succ h) d)

lemma headD_eq_getD {α : Type} (l : List α) (d : α) : l.headD d = l.getD 0 d := by
  cases l <;> rfl

lemma getLast?_eq_getD {α : Type} :
    ∀ (l : List α), l ≠ [] → ∀ (d : α), l.getLast? = some (l.getD (l.length - 1) d) := by
  intro l
  induction l with
  | nil => intro h; exact absurd rfl h
  | cons x xs ih =>
      intro _ d
      cases xs with
      | nil => rfl
      | cons y ys =>
          have hne : y :: ys ≠ [] := List.cons_ne_nil y ys
          simp only [List.getLast?_cons_cons]
          rw [ih hne d]
          simp only [List.length_cons, Nat.succ_sub_one, List.getD_cons_succ]

lemma nth_map_mul (c : ℚ) :
    ∀ (l : List ℚ) (n : ℕ), nth (l.map (fun x => c * x)) n = c * nth l n := by
  intro l
  induction l with
  | nil => intro n; simp [nth]
  | cons x xs ih =>
      intro n
      cases n with
      | zero => rfl
      | succ m => simpa [nth] using ih m

/-! ## Length and row-length facts -/

lemma length_cumprodFrom :
    ∀ (m : List (List ℚ)) (acc : List ℚ), (cumprodFrom acc m).length = m.length := by
  intro m
  induction m with
  | nil => intro acc; rfl
  | cons row rest ih =>
      intro acc
      simp only [cumprodFrom, List.length_cons]
      rw [ih]

lemma length_cumprodFrom1 :
    ∀ (xs : List ℚ) (acc : ℚ), (cumprodFrom1 acc xs).length = xs.length := by
  intro xs
  induction xs with
  | nil => intro acc; rfl
  | cons x tl ih =>
      intro acc
      simp only [cumprodFrom1, List.length_cons]
      rw [ih]

lemma length_simulated (r : List ℚ) (d : List (List ℚ)) :
    (simulated_daily_returns r d).length = min r.length d.length := by
  simp [simulated_daily_returns]

lemma length_onePlus (m : List (List ℚ)) : (onePlus m).length = m.length := by
  simp [onePlus]

lemma length_equity (r : List ℚ) (d : List (List ℚ)) :
    (equity_curves r d).length = min r.length d.length := by
  simp [equity_curves, cumprodCols, length_cumprodFrom, length_onePlus, length_simulated]

lemma length_benchmark (r : List ℚ) : (benchmark_curve r).length = r.length := by
  simp [benchmark_curve, cumprodList, length_cumprodFrom1]

lemma rowlen_simulated (r : List ℚ) (d : List (List ℚ)) (t : ℕ)
    (htr : t < r.length) (htd : t < d.length) :
    ((simulated_daily_returns r d).getD t []).length = (d.getD t []).length := by
  unfold simulated_daily_returns
  rw [getD_zipWith' _ r d t htr htd 0 [] []]
  simp

lemma rowlen_onePlus (m : List (List ℚ)) (t : ℕ) (ht : t < m.length) :
    ((onePlus m).getD t []).length = (m.getD t []).length := by
  unfold onePlus
  rw [getD_map' _ m t ht [] []]
  simp

lemma rowlen_cumprodFrom :
    ∀ (m : List (List ℚ)) (acc : List ℚ),
    (∀ k, k < m.length → acc.length ≤ (m.getD k []).length) →
    ∀ t, t < m.length → ((cumprodFrom acc m).getD t []).length = acc.length := by
  intro m
  induction m with
  | nil => intro acc _ t ht; exact absurd ht (Nat.not_lt_zero t)
  | cons row rest ih =>
      intro acc hrows t ht
      have hrow : acc.length ≤ row.length := hrows 0 (Nat.succ_pos _)
      have hcur : (List.zipWith (fun a b => a * b) acc row).length = acc.length := by
        simp only [List.length_zipWith]
        exact Nat.min_eq_left hrow
      cases t with
      | zero => simpa [cumprodFrom] using hcur
      | succ u =>
          simp only [cumprodFrom, List.getD_cons_succ]
          rw [ih _ ?hrest u (Nat.lt_of_succ_lt_succ ht), hcur]
          case hrest =>
            intro k hk
            rw [hcur]
            exact hrows (k + 1) (Nat.succ_lt_succ hk)

/-! ## Entry-level closed forms -/

lemma entry_simulated (r : List ℚ) (d : List (List ℚ)) (t n : ℕ)
    (htr : t < r.length) (htd : t < d.length) :
    entry (simulated_daily_returns r d) t n = nth r t * entry d t n := by
  unfold entry simulated_daily_returns
  rw [getD_zipWith' _ r d t htr htd 0 [] []]
  exact nth_map_mul _ _ _

lemma entry_onePlus (m : List (List ℚ)) (t n : ℕ)
    (ht : t < m.length) (hn : n < (m.getD t []).length) :
    entry (onePlus m) t n = 1 + entry m t n := by
  unfold entry onePlus
  rw [getD_map' _ m t ht [] []]
  unfold nth
  rw [getD_map' _ _ n hn 0 0]

lemma entry_cumprodFrom :
    ∀ (m : List (List ℚ)) (acc : List ℚ) (t n : ℕ),
    t < m.length → n < acc.length →
    (∀ k, k < m.length → acc.length ≤ (m.getD k []).length) →
    entry (cumprodFrom acc m) t n
      = nth acc n * ∏ k ∈ Finset.range (t + 1), entry m k n := by
  intro m
  induction m with
  | nil => intro acc t n ht; exact absurd ht (Nat.not_lt_zero t)
  | cons row rest ih =>
      intro acc t n ht hn hrows
      have hrow : acc.length ≤ row.length := hrows 0 (Nat.succ_pos _)
      have hcur : (List.zipWith (fun a b => a * b) acc row).length = acc.length := by
        simp only [List.length_zipWith]
        exact Nat.min_eq_left hrow
      have hcurn : nth (List.zipWith (fun a b => a * b) acc row) n = nth acc n * nth row n := by
        unfold nth
        exact getD_zipWith' _ acc row n hn (Nat.lt_of_lt_of_le hn hrow) 0 0 0
      cases t with
      | zero =>
          have h0 : entry (cumprodFrom acc (row :: rest)) 0 n
              = nth (List.zipWith (fun a b => a * b) acc row) n := by
            simp [cumprodFrom, entry]
          have hP : ∏ k ∈ Finset.range (0 + 1), entry (row :: rest) k n = nth row n := by
            simp [entry]
          rw [h0, hcurn, hP]
      | succ u =>
          have hstep : entry (cumprodFrom acc (row :: rest)) (u + 1) n
              = entry (cumprodFrom (List.zipWith (fun a b => a * b) acc row) rest) u n := by
            simp [cumprodFrom, entry]
          have hshift : ∀ k : ℕ, entry (row :: rest) (k + 1) n = entry rest k n := by
            intro k; simp [entry]
          have hzero : entry (row :: rest) 0 n = nth row n := by simp [entry]
          have hR : ∏ k ∈ Finset.range (u + 1 + 1), entry (row :: rest) k n
              = (∏ k ∈ Finset.range (u + 1), entry rest k n) * nth row n := by
            rw [Finset.prod_range_succ']
            simp only [hshift, hzero]
          rw [hstep, ih _ u n (Nat.lt_of_succ_lt_succ ht) (by rw [hcur]; exact hn) ?hrest]
          case hrest =>
            intro k hk
            rw [hcur]
            exact hrows (k + 1) (Nat.succ_lt_succ hk)
          rw [hcurn, hR]
          ring

lemma nth_cumprodFrom1 :
    ∀ (xs : List ℚ) (acc : ℚ) (t : ℕ), t < xs.length →
    nth (cumprodFrom1 acc xs) t = acc * ∏ k ∈ Finset.range (t + 1), nth xs k := by
  intro xs
  induction xs with
  | nil => intro acc t ht; exact absurd ht (Nat.not_lt_zero t)
  | cons x tl ih =>
      intro acc t ht
      cases t with
      | zero =>
          simp [cumprodFrom1, nth]
      | succ u =>
          have hstep : nth (cumprodFrom1 acc (x :: tl)) (u + 1)
              = nth (cumprodFrom1 (acc * x) tl) u := by
            simp [cumprodFrom1, nth]
          have hshift : ∀ k : ℕ, nth (x :: tl) (k + 1) = nth tl k := by
            intro k; simp [nth]
          have hzero : nth (x :: tl) 0 = x := rfl
          have hR : ∏ k ∈ Finset.range (u + 1 + 1), nth (x :: tl) k
              = (∏ k ∈ Finset.range (u + 1), nth tl k) * x := by
            rw [Finset.prod_range_succ']
            simp only [hshift, hzero]
          rw [hstep, ih _ u (Nat.lt_of_succ_lt_succ ht), hR]
          ring

/-! ## Matrix-level closed forms -/

lemma rowlen_of_isMatrix {T N : ℕ} {d : List (List ℚ)} (hd : IsMatrix T N d)
    (k : ℕ) (hk : k < T) : (d.getD k []).length = N := by
  exact hd.2 _ (getD_mem' d k (by rw [hd.1]; exact hk) [])

lemma nth_mem (r : List ℚ) (k : ℕ) (hk : k < r.length) : nth r k ∈ r :=
  getD_mem' r k hk 0

lemma entry_of_isBinary {T N : ℕ} {d : List (List ℚ)} (hd : IsMatrix T N d)
    (hb : IsBinary d) (k n : ℕ) (hk : k < T) (hn : n < N) :
    entry d k n = 0 ∨ entry d k n = 1 := by
  have hrow : d.getD k [] ∈ d := getD_mem' d k (by rw [hd.1]; exact hk) []
  have hlen : (d.getD k []).length = N := hd.2 _ hrow
  exact hb _ hrow _ (getD_mem' _ n (by rw [hlen]; exact hn) 0)

/-- The T×N matrix `1 + simulated_daily_returns r d` has rows of length N
and cell `(k, n)` equal to `1 + r[k] * d[k][n]`. -/
lemma entry_one_plus_simulated {N : ℕ} (r : List ℚ) (d : List (List ℚ))
    (hd : IsMatrix r.length N d) (k n : ℕ) (hk : k < r.length) (hn : n < N) :
    entry (onePlus (simulated_daily_returns r d)) k n
      = 1 + nth r k * entry d k n := by
  have hkd : k < d.length := by rw [hd.1]; exact hk
  have hks : k < (simulated_daily_returns r d).length := by
    rw [length_simulated]
    exact lt_min hk hkd
  rw [show entry (onePlus (simulated_daily_returns r d)) k n
      = nth ((onePlus (simulated_daily_returns r d)).getD k []) n from rfl]
  unfold onePlus
  rw [getD_map' _ _ k hks [] []]
  have hsrow : (simulated_daily_returns r d).getD k []
      = (d.getD k []).map (fun x => nth r k * x) := by
    unfold simulated_daily_returns
    rw [getD_zipWith' _ r d k hk hkd 0 [] []]
    rfl
  rw [hsrow]
  have hall : ∀ (l : List ℚ) (n : ℕ),
      nth ((l.map (fun x => nth r k * x)).map (fun x => 1 + x)) n
        = if n < l.length then 1 + nth r k * nth l n else 0 := by
    intro l
    induction l with
    | nil => intro n; simp [nth]
    | cons y ys ihl =>
        intro m
        cases m with
        | zero => simp [nth]
        | succ j => simpa [nth, Nat.succ_lt_succ_iff] using ihl j
  have hrk : n < (d.getD k []).length := by
    rw [rowlen_of_isMatrix hd k hk]
    exact hn
  rw [hall _ n, if_pos hrk]
  rfl

lemma rowlen_M {N : ℕ} (r : List ℚ) (d : List (List ℚ))
    (hd : IsMatrix r.length N d) (k : ℕ) (hk : k < r.length) :
    ((onePlus (simulated_daily_returns r d)).getD k []).length = N := by
  have hkd : k < d.length := by rw [hd.1]; exact hk
  have hks : k < (simulated_daily_returns r d).length := by
    rw [length_simulated]
    exact lt_min hk hkd
  rw [rowlen_onePlus _ k hks, rowlen_simulated r d k hk hkd]
  exact rowlen_of_isMatrix hd k hk

lemma entry_equity {N : ℕ} (r : List ℚ) (d : List (List ℚ))
    (hd : IsMatrix r.length N d) (t n : ℕ) (ht : t < r.length) (hn : n < N) :
    entry (equity_curves r d) t n
      = ∏ k ∈ Finset.range (t + 1), (1 + nth r k * entry d k n) := by
  have hMlen : (onePlus (simulated_daily_returns r d)).length = r.length := by
    rw [length_onePlus, length_simulated, hd.1, min_self]
  have hW : ((onePlus (simulated_daily_returns r d)).headD []).length = N := by
    rw [headD_eq_getD]
    exact rowlen_M r d hd 0 (Nat.lt_of_le_of_lt (Nat.zero_le t) ht)
  unfold equity_curves cumprodCols
  rw [hW]
  rw [entry_cumprodFrom _ (List.replicate N 1) t n (by rw [hMlen]; exact ht)
      (by simpa using hn) ?hrows]
  case hrows =>
    intro k hk
    rw [List.length_replicate, rowlen_M r d hd k (by rw [hMlen] at hk; exact hk)]
  have h1 : nth (List.replicate N 1) n = 1 := getD_replicate' 1 N n hn 0
  rw [h1, one_mul]
  refine Finset.prod_congr rfl ?h
  intro k hk
  have hkr : k < r.length := by
    have := Finset.mem_range.mp hk
    omega
  exact entry_one_plus_simulated r d hd k n hkr hn

lemma nth_benchmark (r : List ℚ) (t : ℕ) (ht : t < r.length) :
    nth (benchmark_curve r) t = ∏ k ∈ Finset.range (t + 1), (1 + nth r k) := by
  unfold benchmark_curve cumprodList
  rw [nth_cumprodFrom1 _ 1 t (by simpa using ht), one_mul]
  refine Finset.prod_congr rfl ?h
  intro k hk
  have hkr : k < r.length := by
    have := Finset.mem_range.mp hk
    omega
  unfold nth
  rw [getD_map' _ r k hkr 0 0]

/-- A column whose decisions are all 1 compounds exactly like the benchmark. -/
lemma column_ones_eq_benchmark {N : ℕ} (r : List ℚ) (d : List (List ℚ))
    (hd : IsMatrix r.length N d) (n : ℕ) (hn : n < N)
    (hcol : ∀ t, t < r.length → entry d t n = 1)
    (t : ℕ) (ht : t < r.length) :
    entry (equity_curves r d) t n = nth (benchmark_curve r) t := by
  rw [entry_equity r d hd t n ht hn, nth_benchmark r t ht]
  refine Finset.prod_congr rfl ?h
  intro k hk
  have hkr : k < r.length := by
    have := Finset.mem_range.mp hk
    omega
  rw [hcol k hkr, mul_one]

lemma rowlen_equity {N : ℕ} (r : List ℚ) (d : List (List ℚ))
    (hd : IsMatrix r.length N d) (t : ℕ) (ht : t < r.length) :
    ((equity_curves r d).getD t []).length = N := by
  have hMlen : (onePlus (simulated_daily_returns r d)).length = r.length := by
    rw [length_onePlus, length_simulated, hd.1, min_self]
  have hW : ((onePlus (simulated_daily_returns r d)).headD []).length = N := by
    rw [headD_eq_getD]
    exact rowlen_M r d hd 0 (Nat.lt_of_le_of_lt (Nat.zero_le t) ht)
  unfold equity_curves cumprodCols
  rw [hW]
  rw [rowlen_cumprodFrom _ _ ?hrows t (by rw [hMlen]; exact ht)]
  · simp
  case hrows =>
    intro k hk
    rw [List.length_replicate, rowlen_M r d hd k (by rw [hMlen] at hk; exact hk)]

lemma buildMatrix_isMatrix (seed T N : ℕ) : IsMatrix T N (buildMatrix seed T N) := by
  constructor
  · simp [buildMatrix]
  · intro row hrow
    simp only [buildMatrix, List.mem_map] at hrow
    obtain ⟨t, _, rfl⟩ := hrow
    simp

lemma buildMatrix_isBinary (seed T N : ℕ) : IsBinary (buildMatrix seed T N) := by
  intro row hrow x hx
  simp only [buildMatrix, List.mem_map] at hrow
  obtain ⟨t, _, rfl⟩ := hrow
  simp only [List.mem_map] at hx
  obtain ⟨n, _, rfl⟩ := hx
  unfold draw
  split
  · exact Or.inl rfl
  · exact Or.inr rfl

/-! ## Claims -/

/-- C1: for every return series `r` of length T and every T×N decision matrix
`d` with entries in {0, 1}, the Simulated Return Matrix satisfies, at each cell
(t, n): it equals `r[t] * d[t][n]`, hence 0 when `d[t][n] = 0` and exactly
`r[t]` when `d[t][n] = 1`. -/
theorem C1_simulated_return_matrix (r : List ℚ) (d : List (List ℚ)) (T N : ℕ)
    (hr : r.length = T) (hd : IsMatrix T N d) (hb : IsBinary d)
    (t n : ℕ) (ht : t < T) (hn : n < N) :
    entry (simulated_daily_returns r d) t n = nth r t * entry d t n ∧
    (entry d t n = 0 → entry (simulated_daily_returns r d) t n = 0) ∧
    (entry d t n = 1 → entry (simulated_daily_returns r d) t n = nth r t) := by
  have htr : t < r.length := by rw [hr]; exact ht
  have htd : t < d.length := by rw [hd.1]; exact ht
  have h := entry_simulated r d t n htr htd
  refine ⟨h, ?z, ?o⟩
  · intro h0
    rw [h, h0, mul_zero]
  · intro h1
    rw [h, h1, mul_one]

theorem C1_simulated_return_matrix_witness :
    (([1/2, -1/3] : List ℚ).length = 2 ∧ IsMatrix 2 2 ([[1, 0], [0, 1]] : List (List ℚ)) ∧
      IsBinary ([[1, 0], [0, 1]] : List (List ℚ))) ∧
    (entry (simulated_daily_returns [1/2, -1/3] [[1, 0], [0, 1]]) 1 1
        = nth [1/2, -1/3] 1 * entry [[1, 0], [0, 1]] 1 1 ∧
      (entry ([[1, 0], [0, 1]] : List (List ℚ)) 1 1 = 0 →
        entry (simulated_daily_returns [1/2, -1/3] [[1, 0], [0, 1]]) 1 1 = 0) ∧
      (entry ([[1, 0], [0, 1]] : List (List ℚ)) 1 1 = 1 →
        entry (simulated_daily_returns [1/2, -1/3] [[1, 0], [0, 1]]) 1 1 = nth [1/2, -1/3] 1)) :=
  ⟨⟨by decide, ⟨by decide, by decide⟩, by unfold IsBinary; decide⟩,
    C1_simulated_return_matrix [1/2, -1/3] [[1, 0], [0, 1]] 2 2 (by decide)
      ⟨by decide, by decide⟩ (by unfold IsBinary; decide) 1 1 (by decide) (by decide)⟩

/-- C2: the Benchmark Curve (cumulative product of `1 + r[t]` over the raw
return series) agrees at every index with any Equity Curve Matrix column whose
decision entries are all 1 — the two computation paths coincide. -/
theorem C2_benchmark_agrees_with_all_ones_column (r : List ℚ) (d : List (List ℚ))
    (N : ℕ) (hd : IsMatrix r.length N d) (n : ℕ) (hn : n < N)
    (hcol : ∀ t, t < r.length → entry d t n = 1)
    (t : ℕ) (ht : t < r.length) :
    entry (equity_curves r d) t n = nth (benchmark_curve r) t :=
  column_ones_eq_benchmark r d hd n hn hcol t ht

theorem C2_benchmark_agrees_with_all_ones_column_witness :
    (IsMatrix ([1/10, -1/2] : List ℚ).length 2 ([[1, 1], [0, 1]] : List (List ℚ)) ∧
      (∀ t, t < ([1/10, -1/2] : List ℚ).length →
        entry ([[1, 1], [0, 1]] : List (List ℚ)) t 1 = 1)) ∧
    entry (equity_curves [1/10, -1/2] [[1, 1], [0, 1]]) 1 1
      = nth (benchmark_curve [1/10, -1/2]) 1 :=
  ⟨⟨⟨by decide, by decide⟩, by decide⟩,
    C2_benchmark_agrees_with_all_ones_column [1/10, -1/2] [[1, 1], [0, 1]] 2
      ⟨by decide, by decide⟩ 1 (by decide) (by decide) 1 (by decide)⟩

/-- C7: if the return series is all zeros (T ≥ 1), every cell of the Equity
Curve Matrix and every point of the Benchmark Curve equals 1, regardless of
the decision matrix. -/
theorem C7_all_zero_returns_break_even (r : List ℚ) (d : List (List ℚ)) (N : ℕ)
    (hT : 1 ≤ r.length) (hd : IsMatrix r.length N d)
    (hzero : ∀ x ∈ r, x = 0) :
    (∀ t n, t < r.length → n < N → entry (equity_curves r d) t n = 1) ∧
    (∀ t, t < r.length → nth (benchmark_curve r) t = 1) := by
  constructor
  · intro t n ht hn
    rw [entry_equity r d hd t n ht hn]
    refine Finset.prod_eq_one fun k hk => ?_
    have hkr : k < r.length := by
      have := Finset.mem_range.mp hk
      omega
    rw [hzero _ (nth_mem r k hkr), zero_mul, add_zero]
  · intro t ht
    rw [nth_benchmark r t ht]
    refine Finset.prod_eq_one fun k hk => ?_
    have hkr : k < r.length := by
      have := Finset.mem_range.mp hk
      omega
    rw [hzero _ (nth_mem r k hkr), add_zero]

theorem C7_all_zero_returns_break_even_witness :
    (1 ≤ ([0, 0] : List ℚ).length ∧ IsMatrix ([0, 0] : List ℚ).length 1
        ([[1], [0]] : List (List ℚ)) ∧ (∀ x ∈ ([0, 0] : List ℚ), x = 0)) ∧
    ((∀ t n, t < ([0, 0] : List ℚ).length → n < 1 →
        entry (equity_curves [0, 0] [[1], [0]]) t n = 1) ∧
      (∀ t, t < ([0, 0] : List ℚ).length → nth (benchmark_curve [0, 0]) t = 1)) :=
  ⟨⟨by decide, ⟨by decide, by decide⟩, by decide⟩,
    C7_all_zero_returns_break_even [0, 0] [[1], [0]] 1 (by decide)
      ⟨by decide, by decide⟩ (by decide)⟩

/-- C9: if every return is strictly greater than -1 and the decision matrix is
binary of matching shape, every Equity Curve Matrix cell and every Benchmark
Curve point is strictly positive. -/
theorem C9_curves_strictly_positive (r : List ℚ) (d : List (List ℚ)) (N : ℕ)
    (hd : IsMatrix r.length N d) (hb : IsBinary d)
    (hr : ∀ x ∈ r, -1 < x) :
    (∀ t n, t < r.length → n < N → 0 < entry (equity_curves r d) t n) ∧
    (∀ t, t < r.length → 0 < nth (benchmark_curve r) t) := by
  have hfac : ∀ k n, k < r.length → n < N → 0 < 1 + nth r k * entry d k n := by
    intro k n hk hn
    rcases entry_of_isBinary hd hb k n hk hn with h | h
    · rw [h, mul_zero, add_zero]
      exact one_pos
    · rw [h, mul_one]
      have := hr _ (nth_mem r k hk)
      linarith
  constructor
  · intro t n ht hn
    rw [entry_equity r d hd t n ht hn]
    refine Finset.prod_pos ?h
    intro k hk
    refine hfac k n ?hk hn
    have := Finset.mem_range.mp hk
    omega
  · intro t ht
    rw [nth_benchmark r t ht]
    refine Finset.prod_pos ?h
    intro k hk
    have hkr : k < r.length := by
      have := Finset.mem_range.mp hk
      omega
    have := hr _ (nth_mem r k hkr)
    linarith

theorem C9_curves_strictly_positive_witness :
    (IsMatrix ([-1/2, 3] : List ℚ).length 2 ([[1, 0], [1, 1]] : List (List ℚ)) ∧
      IsBinary ([[1, 0], [1, 1]] : List (List ℚ)) ∧
      (∀ x ∈ ([-1/2, 3] : List ℚ), -1 < x)) ∧
    ((∀ t n, t < ([-1/2, 3] : List ℚ).length → n < 2 →
        0 < entry (equity_curves [-1/2, 3] [[1, 0], [1, 1]]) t n) ∧
      (∀ t, t < ([-1/2, 3] : List ℚ).length → 0 < nth (benchmark_curve [-1/2, 3]) t)) :=
  ⟨⟨⟨by decide, by decide⟩, by unfold IsBinary; decide, by norm_num⟩,
    C9_curves_strictly_positive [-1/2, 3] [[1, 0], [1, 1]] 2
      ⟨by decide, by decide⟩ (by unfold IsBinary; decide) (by norm_num)⟩

/-- C10: if every return is nonnegative, then at every time and for every
simulation the Equity Curve Matrix cell is at most the Benchmark Curve point:
with no down days, no in/out strategy beats buy-and-hold at any time. -/
theorem C10_benchmark_dominates_when_nonneg (r : List ℚ) (d : List (List ℚ)) (N : ℕ)
    (hd : IsMatrix r.length N d) (hb : IsBinary d)
    (hr : ∀ x ∈ r, 0 ≤ x)
    (t n : ℕ) (ht : t < r.length) (hn : n < N) :
    entry (equity_curves r d) t n ≤ nth (benchmark_curve r) t := by
  rw [entry_equity r d hd t n ht hn, nth_benchmark r t ht]
  refine Finset.prod_le_prod ?h0 ?hle
  · intro k hk
    have hkr : k < r.length := by
      have := Finset.mem_range.mp hk
      omega
    rcases entry_of_isBinary hd hb k n hkr hn with h | h
    · rw [h, mul_zero, add_zero]
      exact zero_le_one
    · rw [h, mul_one]
      have := hr _ (nth_mem r k hkr)
      linarith
  · intro k hk
    have hkr : k < r.length := by
      have := Finset.mem_range.mp hk
      omega
    rcases entry_of_isBinary hd hb k n hkr hn with h | h
    · rw [h, mul_zero, add_zero]
      have := hr _ (nth_mem r k hkr)
      linarith
    · rw [h, mul_one]

theorem C10_benchmark_dominates_when_nonneg_witness :
    (IsMatrix ([1/10, 0, 2] : List ℚ).length 2 ([[1, 0], [0, 1], [0, 1]] : List (List ℚ)) ∧
      IsBinary ([[1, 0], [0, 1], [0, 1]] : List (List ℚ)) ∧
      (∀ x ∈ ([1/10, 0, 2] : List ℚ), 0 ≤ x)) ∧
    entry (equity_curves [1/10, 0, 2] [[1, 0], [0, 1], [0, 1]]) 2 0
      ≤ nth (benchmark_curve [1/10, 0, 2]) 2 :=
  ⟨⟨⟨by decide, by decide⟩, by unfold IsBinary; decide, by norm_num⟩,
    C10_benchmark_dominates_when_nonneg [1/10, 0, 2] [[1, 0], [0, 1], [0, 1]] 2
      ⟨by decide, by decide⟩ (by unfold IsBinary; decide) (by norm_num) 2 0
      (by decide) (by decide)⟩

/-- C3: for every chronological price series of length ≥ 2, the return series
has the same length, element 0 is 0, element t (t ≥ 1) is
`price[t]/price[t-1] - 1`, and any percentage change left undefined by a
missing price is substituted with 0. -/
theorem C3_return_series_builder (prices : List (Option ℚ)) (h2 : 2 ≤ prices.length) :
    (market_returns prices).length = prices.length ∧
    nth (market_returns prices) 0 = 0 ∧
    ∀ t, 1 ≤ t → t < prices.length →
      (∀ p q, prices.getD t none = some p → prices.getD (t - 1) none = some q →
        nth (market_returns prices) t = p / q - 1) ∧
      ((prices.getD t none = none ∨ prices.getD (t - 1) none = none) →
        nth (market_returns prices) t = 0) := by
  obtain ⟨p0, tl, rfl⟩ : ∃ p0 tl, prices = p0 :: tl := by
    cases prices with
    | nil => simp at h2
    | cons a l => exact ⟨a, l, rfl⟩
  have hzs : (List.zipWith (fun prev cur =>
      match prev, cur with
      | some q, some p => some (p / q - 1)
      | _, _ => none) (p0 :: tl) tl).length = tl.length := by
    simp [List.length_zipWith]
  have hmr : market_returns (p0 :: tl)
      = 0 :: (List.zipWith (fun prev cur =>
          match prev, cur with
          | some q, some p => some (p / q - 1)
          | _, _ => none) (p0 :: tl) tl).map (fun o => o.getD 0) := rfl
  refine ⟨?len, ?head, ?tail⟩
  case len =>
    rw [hmr]
    simp only [List.length_cons, List.length_map, hzs]
  case head => rfl
  case tail =>
    intro t h1 ht
    obtain ⟨k, rfl⟩ : ∃ k, t = k + 1 := ⟨t - 1, (Nat.succ_pred_eq_of_pos h1).symm⟩
    have hk : k < tl.length := by
      simp only [List.length_cons] at ht
      omega
    have hnth : nth (market_returns (p0 :: tl)) (k + 1)
        = Option.getD ((List.zipWith (fun prev cur =>
            match prev, cur with
            | some q, some p => some (p / q - 1)
            | _, _ => none) (p0 :: tl) tl).getD k none) 0 := by
      rw [hmr]
      have h1' : nth (0 :: (List.zipWith (fun prev cur =>
          match prev, cur with
          | some q, some p => some (p / q - 1)
          | _, _ => none) (p0 :: tl) tl).map (fun o => o.getD 0)) (k + 1)
          = nth ((List.zipWith (fun prev cur =>
              match prev, cur with
              | some q, some p => some (p / q - 1)
              | _, _ => none) (p0 :: tl) tl).map (fun o => o.getD 0)) k := by
        simp [nth]
      rw [h1']
      unfold nth
      rw [getD_map' _ _ k (by rw [hzs]; exact hk) none 0]
    have hget : (List.zipWith (fun prev cur =>
        match prev, cur with
        | some q, some p => some (p / q - 1)
        | _, _ => none) (p0 :: tl) tl).getD k none
        = (match (p0 :: tl).getD k none, tl.getD k none with
           | some q, some p => some (p / q - 1)
           | _, _ => none) := by
      exact getD_zipWith' _ (p0 :: tl) tl k (by simp; omega) hk none none none
    have htlk : tl.getD k none = (p0 :: tl).getD (k + 1) none := rfl
    constructor
    · intro p q hp hq
      have hq' : (p0 :: tl).getD (k + 1 - 1) none = (p0 :: tl).getD k none := rfl
      rw [hnth, hget, ← htlk] at *
      rw [hq' ] at hq
      rw [hq, hp]
      rfl
    · intro hor
      rw [hnth, hget]
      rcases hor with hnone | hnone
      · rw [show (p0 :: tl).getD (k + 1) none = tl.getD k none from rfl] at hnone
        rw [hnone]
        rcases hcase : (p0 :: tl).getD k none with _ | q
        · rfl
        · rfl
      · rw [show (p0 :: tl).getD (k + 1 - 1) none = (p0 :: tl).getD k none from rfl] at hnone
        rw [hnone]
        rfl

theorem C3_return_series_builder_witness :
    (2 ≤ ([some 10, some 11, none, some 12] : List (Option ℚ)).length) ∧
    (market_returns [some 10, some 11, none, some 12]).length
        = ([some 10, some 11, none, some 12] : List (Option ℚ)).length ∧
    nth (market_returns [some 10, some 11, none, some 12]) 0 = 0 ∧
    nth (market_returns [some 10, some 11, none, some 12]) 1 = 11 / 10 - 1 ∧
    nth (market_returns [some 10, some 11, none, some 12]) 2 = 0 := by
  have H := C3_return_series_builder [some 10, some 11, none, some 12] (by decide)
  exact ⟨by decide, H.1, H.2.1, (H.2.2 1 (by decide) (by decide)).1 11 10 rfl rfl,
    (H.2.2 2 (by decide) (by decide)).2 (Or.inl rfl)⟩

/-- C8: runs are reproducible on demand: two runs of the engine given the same
return series, the same T and N, and the same generator seed produce the same
Decision Matrix (a genuine T×N binary matrix), and hence the same Equity Curve
Matrix. -/
theorem C8_seeded_runs_reproducible (r : List ℚ) (T N : ℤ) (s1 s2 : ℕ)
    (hs : s1 = s2) :
    decision_matrix s1 T N = decision_matrix s2 T N ∧
    (∀ d1 d2, decision_matrix s1 T N = some d1 → decision_matrix s2 T N = some d2 →
      d1 = d2 ∧ equity_curves r d1 = equity_curves r d2) ∧
    (∀ d, decision_matrix s1 T N = some d → IsMatrix T.toNat N.toNat d ∧ IsBinary d) := by
  subst hs
  refine ⟨rfl, ?uniq, ?shape⟩
  case uniq =>
    intro d1 d2 h1 h2
    rw [h1] at h2
    obtain rfl : d1 = d2 := Option.some.inj h2
    exact ⟨rfl, rfl⟩
  case shape =>
    intro d h
    unfold decision_matrix at h
    split at h
    · obtain rfl : buildMatrix s1 T.toNat N.toNat = d := Option.some.inj h
      exact ⟨buildMatrix_isMatrix s1 T.toNat N.toNat, buildMatrix_isBinary s1 T.toNat N.toNat⟩
    · exact Option.noConfusion h

theorem C8_seeded_runs_reproducible_witness :
    (12345 = 12345) ∧
    (decision_matrix 12345 3 2 = decision_matrix 12345 3 2 ∧
      (∀ d1 d2, decision_matrix 12345 3 2 = some d1 →
        decision_matrix 12345 3 2 = some d2 →
        d1 = d2 ∧ equity_curves [1/2] d1 = equity_curves [1/2] d2) ∧
      (∀ d, decision_matrix 12345 3 2 = some d →
        IsMatrix (3 : ℤ).toNat (2 : ℤ).toNat d ∧ IsBinary d)) :=
  ⟨rfl, C8_seeded_runs_reproducible [1/2] 3 2 12345 12345 rfl⟩

/-- C4 counterexample: on zero-row quote data the run does not fail before the
simulation stage. The engine accepts T = 0 and builds the zero-row decision and
equity matrices without error; the first failing step is the final-values
extraction (`equity_curves[-1, :]` on an empty first axis), after simulation. -/
theorem C4_counterexample_zero_rows_reach_simulation :
    decision_matrix 0 0 10000 = some [] ∧
    equity_curves [] [] = [] ∧
    final_values (equity_curves [] []) = none := by
  refine ⟨?dm, rfl, rfl⟩
  unfold decision_matrix
  rw [if_pos ⟨le_refl 0, by norm_num⟩]
  rfl

/-- C4 (amended): when the quote source yields zero rows the pipeline does not
abort early: the decision matrix is built (zero rows), the equity-curve matrix
is built (empty), and the run fails only at final-value extraction, with an
index error rather than a descriptive pre-simulation check. -/
theorem C4_zero_rows_fail_at_final_values (seed : ℕ) (N : ℤ) (hN : 0 ≤ N)
    (d : List (List ℚ)) :
    (decision_matrix seed 0 N).isSome = true ∧
    equity_curves [] d = [] ∧
    final_values (equity_curves [] d) = none := by
  refine ⟨?dm, rfl, rfl⟩
  unfold decision_matrix
  rw [if_pos ⟨le_refl 0, hN⟩]
  rfl

theorem C4_zero_rows_fail_at_final_values_witness :
    (0 ≤ (10000 : ℤ)) ∧
    ((decision_matrix 7 0 10000).isSome = true ∧
      equity_curves [] [[1, 0]] = [] ∧
      final_values (equity_curves [] [[1, 0]]) = none) :=
  ⟨by norm_num, C4_zero_rows_fail_at_final_values 7 10000 (by norm_num) [[1, 0]]⟩

/-- C5 counterexample: the engine does not fail for N = 0 (with T = 1) nor for
T = 0 (with N = 5): a zero-sized dimension is accepted and yields an empty
matrix, refuting "fails whenever N ≤ 0 or T < 1" at N = 0 and at T = 0. -/
theorem C5_counterexample_zero_dimensions_accepted :
    (decision_matrix 0 1 0).isSome = true ∧ (decision_matrix 0 0 5).isSome = true := by
  constructor
  · unfold decision_matrix
    rw [if_pos ⟨by norm_num, le_refl 0⟩]
    rfl
  · unfold decision_matrix
    rw [if_pos ⟨le_refl 0, by norm_num⟩]
    rfl

/-- C5 (amended): the engine refuses to run exactly when a requested dimension
is negative (T < 0 or N < 0); N = 0 and T = 0 are accepted and produce empty
matrices. A return of exactly -1 on an invested day is not an error: that
path's equity is 0 from that day onward and the path is still included in the
Final Values row. -/
theorem C5_engine_failure_modes (seed : ℕ) (T N : ℤ)
    (r : List ℚ) (d : List (List ℚ)) (M : ℕ)
    (hd : IsMatrix r.length M d) (t n : ℕ) (ht : t < r.length) (hn : n < M)
    (hrt : nth r t = -1) (hdt : entry d t n = 1) :
    ((decision_matrix seed T N).isSome = true ↔ 0 ≤ T ∧ 0 ≤ N) ∧
    (∀ u, t ≤ u → u < r.length → entry (equity_curves r d) u n = 0) ∧
    (∃ fv, final_values (equity_curves r d) = some fv ∧ nth fv n = 0) := by
  have hzero : ∀ u, t ≤ u → u < r.length → entry (equity_curves r d) u n = 0 := by
    intro u htu hu
    rw [entry_equity r d hd u n hu hn]
    have hmem : t ∈ Finset.range (u + 1) := Finset.mem_range.mpr (by omega)
    refine Finset.prod_eq_zero hmem ?f0
    rw [hrt, hdt]
    norm_num
  have hlen : (equity_curves r d).length = r.length := by
    rw [length_equity, hd.1, min_self]
  have hne : equity_curves r d ≠ [] := by
    intro hcon
    rw [hcon] at hlen
    simp only [List.length_nil] at hlen
    omega
  refine ⟨?iff, hzero, ?fv⟩
  case iff =>
    unfold decision_matrix
    split
    next hTN => simp [hTN]
    next hTN => simp [hTN]
  case fv =>
    refine ⟨(equity_curves r d).getD ((equity_curves r d).length - 1) [],
      getLast?_eq_getD _ hne [], ?last⟩
    have hidx : nth ((equity_curves r d).getD ((equity_curves r d).length - 1) []) n
        = entry (equity_curves r d) ((equity_curves r d).length - 1) n := rfl
    rw [hidx, hlen]
    exact hzero (r.length - 1) (by omega) (by omega)

theorem C5_engine_failure_modes_witness :
    (IsMatrix ([-1, 1/2] : List ℚ).length 2 ([[1, 1], [1, 0]] : List (List ℚ)) ∧
      nth [-1, 1/2] 0 = -1 ∧ entry ([[1, 1], [1, 0]] : List (List ℚ)) 0 0 = 1) ∧
    (((decision_matrix 0 3 4).isSome = true ↔ (0 : ℤ) ≤ 3 ∧ (0 : ℤ) ≤ 4) ∧
      (∀ u, 0 ≤ u → u < ([-1, 1/2] : List ℚ).length →
        entry (equity_curves [-1, 1/2] [[1, 1], [1, 0]]) u 0 = 0) ∧
      (∃ fv, final_values (equity_curves [-1, 1/2] [[1, 1], [1, 0]]) = some fv ∧
        nth fv 0 = 0)) :=
  ⟨⟨⟨by decide, by decide⟩, by norm_num [nth], by decide⟩,
    C5_engine_failure_modes 0 3 4 [-1, 1/2] [[1, 1], [1, 0]] 2
      ⟨by decide, by decide⟩ 0 0 (by decide) (by decide)
      (by norm_num [nth]) (by decide)⟩

/-- C6: a path is counted as beating the benchmark only under strict
inequality on final values; hence for N = 1 with an all-ones decision column
(the buy-and-hold strategy itself) the beat count and the reported probability
are both 0. -/
theorem C6_all_ones_column_never_beats_benchmark (r : List ℚ) (hr : r ≠ []) :
    ∃ fv bf,
      final_values (equity_curves r (List.replicate r.length [1])) = some fv ∧
      benchmark_final r = some bf ∧
      beat_benchmark fv bf = 0 ∧
      prob_success (beat_benchmark fv bf) 1 = 0 := by
  have hTpos : 0 < r.length := List.length_pos.mpr hr
  have hd : IsMatrix r.length 1 (List.replicate r.length [1]) := by
    refine ⟨List.length_replicate _ _, ?rows⟩
    intro row hrow
    rw [List.eq_of_mem_replicate hrow]
    rfl
  have hcol : ∀ t, t < r.length → entry (List.replicate r.length [1]) t 0 = 1 := by
    intro t htT
    unfold entry
    rw [getD_replicate' _ _ t htT []]
    rfl
  have hlen : (equity_curves r (List.replicate r.length [1])).length = r.length := by
    rw [length_equity, List.length_replicate, min_self]
  have hne : equity_curves r (List.replicate r.length [1]) ≠ [] := by
    intro hcon
    rw [hcon] at hlen
    simp only [List.length_nil] at hlen
    omega
  have hbne : benchmark_curve r ≠ [] := by
    intro hcon
    have hbl := length_benchmark r
    rw [hcon] at hbl
    simp only [List.length_nil] at hbl
    omega
  have hrowlen : ((equity_curves r (List.replicate r.length [1])).getD
      ((equity_curves r (List.replicate r.length [1])).length - 1) []).length = 1 := by
    rw [hlen]
    exact rowlen_equity r _ hd (r.length - 1) (by omega)
  have hentry : nth ((equity_curves r (List.replicate r.length [1])).getD
        ((equity_curves r (List.replicate r.length [1])).length - 1) []) 0
      = (benchmark_curve r).getD ((benchmark_curve r).length - 1) 0 := by
    have hidx : nth ((equity_curves r (List.replicate r.length [1])).getD
          ((equity_curves r (List.replicate r.length [1])).length - 1) []) 0
        = entry (equity_curves r (List.replicate r.length [1]))
            ((equity_curves r (List.replicate r.length [1])).length - 1) 0 := rfl
    rw [hidx, hlen,
      column_ones_eq_benchmark r _ hd 0 Nat.one_pos hcol (r.length - 1) (by omega),
      length_benchmark]
    rfl
  obtain ⟨a, hfveq⟩ : ∃ a, (equity_curves r (List.replicate r.length [1])).getD
      ((equity_curves r (List.replicate r.length [1])).length - 1) [] = [a] := by
    rcases hc : (equity_curves r (List.replicate r.length [1])).getD
        ((equity_curves r (List.replicate r.length [1])).length - 1) [] with _ | ⟨a, tl⟩
    · rw [hc] at hrowlen
      simp at hrowlen
    · rcases tl with _ | ⟨b, tl2⟩
      · exact ⟨a, rfl⟩
      · rw [hc] at hrowlen
        simp at hrowlen
  have ha : a = (benchmark_curve r).getD ((benchmark_curve r).length - 1) 0 := by
    rw [hfveq] at hentry
    simpa [nth] using hentry
  have hbeat : beat_benchmark [a] ((benchmark_curve r).getD
      ((benchmark_curve r).length - 1) 0) = 0 := by
    rw [ha]
    simp [beat_benchmark, lt_irrefl]
  refine ⟨[a], (benchmark_curve r).getD ((benchmark_curve r).length - 1) 0,
    ?hfv, getLast?_eq_getD _ hbne 0, hbeat, ?hprob⟩
  case hfv =>
    rw [← hfveq]
    exact getLast?_eq_getD _ hne []
  case hprob =>
    rw [hbeat]
    norm_num [prob_success]

theorem C6_all_ones_column_never_beats_benchmark_witness :
    (([1/10, -1/5] : List ℚ) ≠ []) ∧
    (∃ fv bf,
      final_values (equity_curves [1/10, -1/5]
        (List.replicate ([1/10, -1/5] : List ℚ).length [1])) = some fv ∧
      benchmark_final [1/10, -1/5] = some bf ∧
      beat_benchmark fv bf = 0 ∧
      prob_success (beat_benchmark fv bf) 1 = 0) :=
  ⟨by simp, C6_all_ones_column_never_beats_benchmark [1/10, -1/5] (by simp)⟩

end CoinFlip
